import Mathlib

/-
Verification development for the Mavis-notebook searchclient:
a shallow embedding of `searchclient/strategies/dfs.py` (class FrontierDFS)
and `searchclient/search_algorithms/graph_search.py` (graph_search and
print_search_status), together with theorems settling the frozen claims.

Modelling conventions:
* Python state objects are value-comparable (equality and hashing compare the
  world configuration only).  In the generic frontier embedding the element
  type takes the role of a state with that equality.
* `time.time()` reads are modelled by an abstract clock, a function from the
  index of the read (0 for the first read of the run) to a rational timestamp.
* A Python exception is modelled by `Option`/an explicit error constructor.
* Machine floats are modelled by rationals; the locale string round trips of
  the source are modelled by explicit numeric functions (`pyFloatOfCommaInt`,
  `round3`) documented at their definitions.
-/

/-- Embedding of `FrontierDFS` from `strategies/dfs.py`: a Python list used as
a stack (append at the tail, pop from the tail) together with a Python set
used as a fast membership index.  The element type carries the Python object
equality. -/
structure FrontierDFS (σ : Type) [DecidableEq σ] where
  stack : List σ
  set : Finset σ

instance {σ : Type} [DecidableEq σ] : DecidableEq (FrontierDFS σ) := fun a b =>
  decidable_of_iff (a.stack = b.stack ∧ a.set = b.set) (by cases a; cases b; simp)

namespace FrontierDFS

variable {σ : Type} [DecidableEq σ] {G : Type}

/-- `prepare(self, goal_description)`: clears both the stack and the set,
regardless of prior use.  The goal description argument is ignored by the
source body. -/
def prepare (_f : FrontierDFS σ) (_goal_description : G) : FrontierDFS σ :=
  ⟨[], ∅⟩

/-- `add(self, state)`: `self.stack.append(state); self.set.add(state)` —
append at the tail of the stack, insert into the membership index. -/
def add (f : FrontierDFS σ) (state : σ) : FrontierDFS σ :=
  ⟨f.stack ++ [state], insert state f.set⟩

/-- `pop(self)`: `state = self.stack.pop(); self.set.remove(state)` — Python
`list.pop()` removes the LAST element and raises `IndexError` on an empty
list; the raise is modelled by `none`. -/
def pop (f : FrontierDFS σ) : Option (σ × FrontierDFS σ) :=
  match f.stack.getLast? with
  | none => none
  | some state => some (state, ⟨f.stack.dropLast, f.set.erase state⟩)

/-- `is_empty(self)`: `len(self.stack) == 0`. -/
def is_empty (f : FrontierDFS σ) : Bool :=
  f.stack.length == 0

/-- `size(self)`: `len(self.stack)`. -/
def size (f : FrontierDFS σ) : Nat :=
  f.stack.length

/-- `contains(self, state)`: `state in self.set`. -/
def contains (f : FrontierDFS σ) (state : σ) : Bool :=
  decide (state ∈ f.set)

end FrontierDFS

/-- A single call against a frontier instance: either `add(s)` or `pop()`. -/
inductive FOp (σ : Type) where
  | add (s : σ)
  | pop
deriving DecidableEq

/-- Number of `add` calls in a call sequence. -/
def countAdds {σ : Type} : List (FOp σ) → Nat
  | [] => 0
  | .add _ :: ops => countAdds ops + 1
  | .pop :: ops => countAdds ops

/-- Number of `pop` calls in a call sequence. -/
def countPops {σ : Type} : List (FOp σ) → Nat
  | [] => 0
  | .add _ :: ops => countPops ops
  | .pop :: ops => countPops ops + 1

/-- Replay a call sequence against a frontier, enforcing the documented
preconditions: `add` is never invoked with a state already present and `pop`
only when the frontier is non-empty; a violating sequence yields `none`. -/
def runOps {σ : Type} [DecidableEq σ] :
    FrontierDFS σ → List (FOp σ) → Option (FrontierDFS σ)
  | f, [] => some f
  | f, .add s :: ops => if f.contains s then none else runOps (f.add s) ops
  | f, .pop :: ops =>
    match f.pop with
    | none => none
    | some (_, f2) => runOps f2 ops

/-- Modelled from the spec: a search node of the domain layer
(`domains/hospital/state.py`, not part of the two embedded files).  A state
carries an opaque world configuration `val`, and either no parent (a root) or
a parent link together with the action-group that produced it from the
parent.  Python state equality and hashing compare the configuration only;
parent links are bookkeeping for plan extraction. -/
inductive SState (V A : Type) where
  | root (val : V)
  | child (val : V) (action : A) (parent : SState V A)
deriving DecidableEq

namespace SState

variable {V A : Type}

/-- The world configuration of a search node. -/
def val : SState V A → V
  | root v => v
  | child v _ _ => v

/-- Modelled from the spec: `state.extract_plan()` reconstructs the plan by
walking parent links from this state back to the root and reversing, giving
the ordered sequence of action-groups used to reach this state. -/
def extract_plan : SState V A → List A
  | root _ => []
  | child _ a p => extract_plan p ++ [a]

/-- Modelled from the spec: `state.get_applicable_actions(action_set)` is an
opaque domain capability; it is abstracted by the function `app` from the
configuration to the applicable action-groups (the fixed action catalogue is
absorbed into `app`). -/
def get_applicable_actions (app : V → List A) (s : SState V A) : List A :=
  app s.val

/-- Modelled from the spec: `state.result(action)` is the deterministic
successor capability.  The configuration transition is the opaque function
`res`; the successor node records this state as its parent and the action
that produced it. -/
def result (res : V → A → V) (s : SState V A) (action : A) : SState V A :=
  child (res s.val action) action s

end SState

/-- Embedding of the frontier as used by `graph_search`, storing search nodes.
Python membership (the set index, and the explored set) compares states by
their world configuration only, so the membership index is modelled as a
`Finset` of configurations while the stack keeps the full nodes.  The
operations mirror `strategies/dfs.py` line by line. -/
structure NodeFrontier (V A : Type) [DecidableEq V] where
  stack : List (SState V A)
  set : Finset V

instance {V A : Type} [DecidableEq V] [DecidableEq A] :
    DecidableEq (NodeFrontier V A) := fun a b =>
  decidable_of_iff (a.stack = b.stack ∧ a.set = b.set) (by cases a; cases b; simp)

namespace NodeFrontier

variable {V A G : Type} [DecidableEq V]

/-- `prepare(self, goal_description)`: clears both structures. -/
def prepare (_f : NodeFrontier V A) (_goal_description : G) : NodeFrontier V A :=
  ⟨[], ∅⟩

/-- `add(self, state)`: append the node at the tail, index its configuration. -/
def add (f : NodeFrontier V A) (state : SState V A) : NodeFrontier V A :=
  ⟨f.stack ++ [state], insert state.val f.set⟩

/-- `pop(self)`: Python `list.pop()` removes the last element (raises on an
empty list, modelled by `none`); `set.remove` drops its configuration. -/
def pop (f : NodeFrontier V A) : Option (SState V A × NodeFrontier V A) :=
  match f.stack.getLast? with
  | none => none
  | some state => some (state, ⟨f.stack.dropLast, f.set.erase state.val⟩)

/-- `is_empty(self)`: `len(self.stack) == 0`. -/
def is_empty (f : NodeFrontier V A) : Bool :=
  f.stack.length == 0

/-- `size(self)`: `len(self.stack)`. -/
def size (f : NodeFrontier V A) : Nat :=
  f.stack.length

/-- `contains(self, state)`: membership of the configuration in the index. -/
def contains (f : NodeFrontier V A) (state : SState V A) : Bool :=
  decide (state.val ∈ f.set)

end NodeFrontier

/-- The mutable local state of the graph_search loop: the frontier, the
explored set (Python set of states, i.e. a set of configurations), and the
`iterations` counter incremented at each pop. -/
structure Config (V A : Type) [DecidableEq V] where
  frontier : NodeFrontier V A
  explored : Finset V
  iterations : Nat

instance {V A : Type} [DecidableEq V] [DecidableEq A] :
    DecidableEq (Config V A) := fun a b =>
  decidable_of_iff
    (a.frontier = b.frontier ∧ a.explored = b.explored ∧
      a.iterations = b.iterations)
    (by cases a; cases b; simp)

/-- Outcome of one iteration of the while loop of `graph_search`. -/
inductive StepResult (V A : Type) [DecidableEq V] where
  | exhausted (c : Config V A)
  | popFailed
  | goalFound (leaf : SState V A) (c : Config V A)
  | next (c : Config V A)

instance {V A : Type} [DecidableEq V] [DecidableEq A] :
    DecidableEq (StepResult V A) := fun a b =>
  match a, b with
  | .exhausted c1, .exhausted c2 => decidable_of_iff (c1 = c2) (by simp)
  | .exhausted _, .popFailed => .isFalse nofun
  | .exhausted _, .goalFound _ _ => .isFalse nofun
  | .exhausted _, .next _ => .isFalse nofun
  | .popFailed, .exhausted _ => .isFalse nofun
  | .popFailed, .popFailed => .isTrue rfl
  | .popFailed, .goalFound _ _ => .isFalse nofun
  | .popFailed, .next _ => .isFalse nofun
  | .goalFound _ _, .exhausted _ => .isFalse nofun
  | .goalFound _ _, .popFailed => .isFalse nofun
  | .goalFound l1 c1, .goalFound l2 c2 =>
    decidable_of_iff (l1 = l2 ∧ c1 = c2) (by simp)
  | .goalFound _ _, .next _ => .isFalse nofun
  | .next _, .exhausted _ => .isFalse nofun
  | .next _, .popFailed => .isFalse nofun
  | .next _, .goalFound _ _ => .isFalse nofun
  | .next c1, .next c2 => decidable_of_iff (c1 = c2) (by simp)

/-- Final outcome of the while loop: `fuelOut` marks a run cut off by the
fuel bound (the Python loop has no bound), `popFailed` a raised
`IndexError`. -/
inductive LoopResult (V A : Type) [DecidableEq V] where
  | fuelOut
  | popFailed
  | exhausted (c : Config V A)
  | goalFound (leaf : SState V A) (c : Config V A)

instance {V A : Type} [DecidableEq V] [DecidableEq A] :
    DecidableEq (LoopResult V A) := fun a b =>
  match a, b with
  | .fuelOut, .fuelOut => .isTrue rfl
  | .fuelOut, .popFailed => .isFalse nofun
  | .fuelOut, .exhausted _ => .isFalse nofun
  | .fuelOut, .goalFound _ _ => .isFalse nofun
  | .popFailed, .fuelOut => .isFalse nofun
  | .popFailed, .popFailed => .isTrue rfl
  | .popFailed, .exhausted _ => .isFalse nofun
  | .popFailed, .goalFound _ _ => .isFalse nofun
  | .exhausted _, .fuelOut => .isFalse nofun
  | .exhausted _, .popFailed => .isFalse nofun
  | .exhausted c1, .exhausted c2 => decidable_of_iff (c1 = c2) (by simp)
  | .exhausted _, .goalFound _ _ => .isFalse nofun
  | .goalFound _ _, .fuelOut => .isFalse nofun
  | .goalFound _ _, .popFailed => .isFalse nofun
  | .goalFound _ _, .exhausted _ => .isFalse nofun
  | .goalFound l1 c1, .goalFound l2 c2 =>
    decidable_of_iff (l1 = l2 ∧ c1 = c2) (by simp)

section Search

variable {V A : Type} [DecidableEq V] [DecidableEq A]
variable (app : V → List A) (res : V → A → V) (goal : V → Bool)
variable (clock : Nat → ℚ)

/-- The body of the inner for loop of `graph_search`:
`child_state = leaf.result(action)` followed by
`if child_state not in explored and not frontier.contains(child_state):
frontier.add(child_state)`. -/
def expandStep (explored : Finset V) (leaf : SState V A)
    (f : NodeFrontier V A) (action : A) : NodeFrontier V A :=
  if (leaf.result res action).val ∉ explored ∧
      f.contains (leaf.result res action) = false then
    f.add (leaf.result res action)
  else f

/-- One iteration of the while loop of `graph_search`: test emptiness, pop a
leaf, count the expansion, test the goal, otherwise add the leaf to the
explored set and push the unseen children. -/
def searchStep (c : Config V A) : StepResult V A :=
  if c.frontier.is_empty then .exhausted c
  else
    match c.frontier.pop with
    | none => .popFailed
    | some (leaf, fr) =>
      let iterations := c.iterations + 1
      if goal leaf.val then .goalFound leaf ⟨fr, c.explored, iterations⟩
      else
        let explored := insert leaf.val c.explored
        let leaf_actions := leaf.get_applicable_actions app
        let fr2 := leaf_actions.foldl (expandStep res explored leaf) fr
        .next ⟨fr2, explored, iterations⟩

/-- The while loop of `graph_search`, bounded by fuel (the Python loop is
unbounded; a run that needs more than the given fuel yields `fuelOut`). -/
def searchLoop : Nat → Config V A → LoopResult V A
  | 0, _ => .fuelOut
  | fuel + 1, c =>
    match searchStep app res goal c with
    | .exhausted c2 => .exhausted c2
    | .popFailed => .popFailed
    | .goalFound leaf c2 => .goalFound leaf c2
    | .next c2 => searchLoop fuel c2

/-- The loop state right after the INIT phase of `graph_search`:
`frontier.prepare(goal_description)`, the initial state stripped to a root
node (modelling `initial_state.parent = None; initial_state.path_cost = 0`),
an empty explored set, and the initial state added to the frontier. -/
def initConfig (initial_state : SState V A) (frontier : NodeFrontier V A) :
    Config V A :=
  ⟨(frontier.prepare goal).add (SState.root initial_state.val), ∅, 0⟩

end Search

/-- Value denoted by the string `f"{n:8,d}".replace(',', '.')` when read back
by Python `float`, as done for the generated count in `graph_search`: below
1000 there is no thousands separator and the value survives; from 1000 up to
999999 the single separator is turned into a decimal point, dividing the
value by 1000; from 1000000 up the string holds two dots and `float` raises
`ValueError` (modelled by `none`). -/
def pyFloatOfCommaInt (n : Nat) : Option ℚ :=
  if n < 1000 then some (n : ℚ)
  else if n < 1000000 then some ((n : ℚ) / 1000)
  else none

/-- Value denoted by the string `f"{t:3.3f}"` when read back by `float` after
the comma/dot swaps, i.e. the time difference rounded to three decimals. -/
def round3 (q : ℚ) : ℚ :=
  (round (q * 1000) : ℚ) / 1000

/-- Numeric content of `print_search_status(expanded, frontier)` from
`graph_search.py`.  The source computes, from the global `start_time`, the
strings `num_generated` and `elapsed_time` and returns them; the values those
strings denote after the float round trips of the caller are modelled here
directly (`pyFloatOfCommaInt` is applied by the caller).  When the `expanded`
argument is empty the source re-baselines the global `start_time` with a
fresh `time.time()` read before the elapsed read.  `i` is the index of the
next unconsumed clock read; the emitted diagnostic line and the memory probe
are side effects without influence on the returned values and are not
modelled. -/
def print_search_status {V A B : Type} [DecidableEq V] (clock : Nat → ℚ)
    (expanded : List B) (frontier : NodeFrontier V A) (start_time : ℚ)
    (i : Nat) : Nat × ℚ :=
  let p : ℚ × Nat :=
    if expanded.length = 0 then (clock i, i + 1) else (start_time, i)
  (expanded.length + frontier.size, round3 (clock p.2 - p.1))

section GraphSearch

variable {V A : Type} [DecidableEq V] [DecidableEq A]
variable (app : V → List A) (res : V → A → V) (goal : V → Bool)
variable (clock : Nat → ℚ)

/-- Embedding of `graph_search(initial_state, action_set, goal_description,
frontier)`.  The domain capabilities are the opaque parameters `app`, `res`
and `goal` (the action catalogue is absorbed into `app`, the goal
description into `goal`); `clock` models the `time.time()` reads in order
(read 0 is the `start_time` assignment at the top of the function); `fuel`
bounds the unbounded Python loop.  `none` models a run that is cut off by
fuel or ends in a raised exception. -/
def graph_search (initial_state : SState V A) (frontier : NodeFrontier V A)
    (fuel : Nat) : Option (Bool × List A × ℚ × ℚ) :=
  match searchLoop app res goal fuel (initConfig goal initial_state frontier) with
  | .fuelOut => none
  | .popFailed => none
  | .exhausted c =>
    some (false, [], (c.iterations : ℚ), clock 1 - clock 0)
  | .goalFound leaf c =>
    (pyFloatOfCommaInt
        (print_search_status clock leaf.extract_plan c.frontier
          (clock 0) 1).1).map
      fun num_generated =>
        (goal leaf.val, leaf.extract_plan, num_generated,
          (print_search_status clock leaf.extract_plan c.frontier
            (clock 0) 1).2)

end GraphSearch

section PlanValidity

variable {V A : Type} [DecidableEq V] [DecidableEq A]
variable (app : V → List A) (res : V → A → V) (goal : V → Bool)

/-- The configuration reached by executing a sequence of action-groups from a
configuration through the successor function. -/
def execPlan (v : V) (plan : List A) : V :=
  plan.foldl res v

/-- Every action-group of the sequence is applicable in the configuration it
is executed from. -/
def steps_ok (v : V) : List A → Bool
  | [] => true
  | a :: plan => decide (a ∈ app v) && steps_ok (res v a) plan

/-- The plan-validity predicate of the claims: starting from `v`, every
consecutive pair of configurations is connected by an applicable action-group
whose transition yields the next configuration, and the final configuration
satisfies the goal predicate. -/
def valid_plan (v : V) : List A → Bool
  | [] => goal v
  | a :: plan => decide (a ∈ app v) && valid_plan (res v a) plan

/-- A search node is consistent with root configuration `v0` when its parent
chain starts at `v0` and each link records an applicable action-group whose
transition produced the configuration of its child node. -/
def Consistent (v0 : V) : SState V A → Prop
  | .root v => v = v0
  | .child v a p => Consistent v0 p ∧ a ∈ app p.val ∧ v = res p.val a

end PlanValidity

section Invariants

variable {V A : Type} [DecidableEq V] [DecidableEq A]

/-- Well-formedness of a frontier relative to an explored set: the membership
index holds exactly the configurations on the stack, the stack holds at most
one node per configuration, and no stacked configuration is explored. -/
def frontierInv (E : Finset V) (f : NodeFrontier V A) : Prop :=
  f.set = (f.stack.map SState.val).toFinset ∧
  (f.stack.map SState.val).Nodup ∧
  ∀ s ∈ f.stack, s.val ∉ E

/-- The loop invariant of `graph_search`: the frontier is well formed with
respect to the explored set; in particular no configuration is referenced by
both the frontier and the explored set at the same time. -/
def loopInv (c : Config V A) : Prop :=
  frontierInv c.explored c.frontier

end Invariants

section PlanLemmas

variable {V A : Type} [DecidableEq V] [DecidableEq A]
variable {app : V → List A} {res : V → A → V} {goal : V → Bool}

theorem valid_plan_eq (v : V) (plan : List A) :
    valid_plan app res goal v plan =
      (steps_ok app res v plan && goal (execPlan res v plan)) := by
  induction plan generalizing v with
  | nil => simp [valid_plan, steps_ok, execPlan]
  | cons a plan ih =>
    simp [valid_plan, steps_ok, execPlan, ih, Bool.and_assoc, List.foldl_cons]

theorem execPlan_concat (v : V) (plan : List A) (a : A) :
    execPlan res v (plan ++ [a]) = res (execPlan res v plan) a := by
  simp [execPlan]

theorem steps_ok_concat (v : V) (plan : List A) (a : A) :
    steps_ok app res v (plan ++ [a]) =
      (steps_ok app res v plan && decide (a ∈ app (execPlan res v plan))) := by
  induction plan generalizing v with
  | nil => simp [steps_ok, execPlan]
  | cons b plan ih => simp [steps_ok, execPlan, ih, Bool.and_assoc]

theorem Consistent.extract_plan_spec {v0 : V} {s : SState V A}
    (h : Consistent app res v0 s) :
    execPlan res v0 s.extract_plan = s.val ∧
      steps_ok app res v0 s.extract_plan = true := by
  induction s with
  | root v =>
    simp only [Consistent] at h
    simp [SState.extract_plan, SState.val, execPlan, steps_ok, h]
  | child v a p ih =>
    obtain ⟨hp, ha, hv⟩ := h
    obtain ⟨he, hs⟩ := ih hp
    constructor
    · rw [SState.extract_plan, execPlan_concat, he, SState.val, hv]
    · rw [SState.extract_plan, steps_ok_concat, hs, he]
      simp [ha]

theorem Consistent.valid_plan_of_goal {v0 : V} {s : SState V A}
    (h : Consistent app res v0 s) (hg : goal s.val = true) :
    valid_plan app res goal v0 s.extract_plan = true := by
  obtain ⟨he, hs⟩ := h.extract_plan_spec
  rw [valid_plan_eq, hs, he, hg]
  rfl

end PlanLemmas

namespace NodeFrontier

variable {V A : Type} [DecidableEq V]

theorem pop_spec {f f2 : NodeFrontier V A} {s : SState V A}
    (h : f.pop = some (s, f2)) :
    f.stack = f2.stack ++ [s] ∧ f2.set = f.set.erase s.val := by
  cases hg : f.stack.getLast? with
  | none => simp [pop, hg] at h
  | some t =>
    simp only [pop, hg] at h
    obtain ⟨rfl, rfl⟩ : t = s ∧ (⟨f.stack.dropLast, f.set.erase t.val⟩ :
        NodeFrontier V A) = f2 := by
      constructor
      · exact congrArg Prod.fst (Option.some.inj h)
      · exact congrArg Prod.snd (Option.some.inj h)
    obtain ⟨l, hl⟩ := List.getLast?_eq_some_iff.mp hg
    constructor
    · rw [hl, List.dropLast_concat]
    · rfl

theorem is_empty_true_iff {f : NodeFrontier V A} :
    f.is_empty = true ↔ f.stack = [] := by
  simp [is_empty, List.length_eq_zero]

theorem pop_none_of_empty {f : NodeFrontier V A} (h : f.is_empty = true) :
    f.pop = none := by
  rw [is_empty_true_iff] at h
  simp [pop, h]

theorem pop_some_of_not_empty {f : NodeFrontier V A} (h : f.is_empty = false) :
    ∃ s f2, f.pop = some (s, f2) := by
  rcases f.stack.eq_nil_or_concat' with hnil | ⟨l, b, hl⟩
  · rw [← is_empty_true_iff] at hnil
    rw [h] at hnil
    cases hnil
  · exact ⟨b, ⟨f.stack.dropLast, f.set.erase b.val⟩, by
      simp [pop, hl, List.getLast?_concat]⟩

end NodeFrontier

section ExpandLemmas

variable {V A : Type} [DecidableEq V] [DecidableEq A]
variable {app : V → List A} {res : V → A → V} {goal : V → Bool}

theorem mem_expandStep_stack {E : Finset V} {leaf s : SState V A}
    {f : NodeFrontier V A} {a : A}
    (h : s ∈ (expandStep res E leaf f a).stack) :
    s ∈ f.stack ∨ s = leaf.result res a := by
  unfold expandStep at h
  split at h
  · rcases List.mem_append.mp h with hs | hs
    · exact Or.inl hs
    · exact Or.inr (List.mem_singleton.mp hs)
  · exact Or.inl h

theorem mem_foldl_expand_stack {E : Finset V} {leaf s : SState V A}
    {f : NodeFrontier V A} {as : List A}
    (h : s ∈ (as.foldl (expandStep res E leaf) f).stack) :
    s ∈ f.stack ∨ ∃ a ∈ as, s = leaf.result res a := by
  induction as generalizing f with
  | nil => exact Or.inl h
  | cons a as ih =>
    rcases ih (f := expandStep res E leaf f a) h with hs | ⟨b, hb, hs⟩
    · rcases mem_expandStep_stack hs with hs2 | hs2
      · exact Or.inl hs2
      · exact Or.inr ⟨a, List.mem_cons_self a as, hs2⟩
    · exact Or.inr ⟨b, List.mem_cons_of_mem a hb, hs⟩

theorem frontierInv_expandStep {E : Finset V} {leaf : SState V A}
    {f : NodeFrontier V A} {a : A} (h : frontierInv E f) :
    frontierInv E (expandStep res E leaf f a) := by
  obtain ⟨hsync, hnd, hdisj⟩ := h
  unfold expandStep
  split
  · next hc =>
    obtain ⟨hE, hcon⟩ := hc
    have hnotin : (leaf.result res a).val ∉ f.set := by
      simpa [NodeFrontier.contains] using hcon
    rw [hsync] at hnotin
    refine ⟨?_, ?_, ?_⟩
    · simp only [NodeFrontier.add, hsync, List.map_append, List.map_cons,
        List.map_nil, List.toFinset_append, List.toFinset_cons,
        List.toFinset_nil]
      ext x
      simp [or_comm]
    · simp only [NodeFrontier.add, List.map_append, List.map_cons,
        List.map_nil]
      rw [List.nodup_append]
      refine ⟨hnd, List.nodup_singleton _, ?_⟩
      intro x hx hx2
      rw [List.mem_singleton] at hx2
      subst hx2
      exact hnotin (List.mem_toFinset.mpr hx) |>.elim
    · intro s hs
      rcases List.mem_append.mp hs with hs2 | hs2
      · exact hdisj s hs2
      · rw [List.mem_singleton] at hs2
        subst hs2
        exact hE
  · exact ⟨hsync, hnd, hdisj⟩

theorem frontierInv_foldl_expand {E : Finset V} {leaf : SState V A}
    {f : NodeFrontier V A} {as : List A} (h : frontierInv E f) :
    frontierInv E (as.foldl (expandStep res E leaf) f) := by
  induction as generalizing f with
  | nil => exact h
  | cons a as ih => exact ih (frontierInv_expandStep h)

theorem frontierInv_pop {E : Finset V} {leaf : SState V A}
    {f f2 : NodeFrontier V A} (h : frontierInv E f)
    (hp : f.pop = some (leaf, f2)) :
    frontierInv E f2 ∧ leaf.val ∉ (f2.stack.map SState.val) ∧
      leaf.val ∉ E := by
  obtain ⟨hsync, hnd, hdisj⟩ := h
  obtain ⟨hstack, hset⟩ := NodeFrontier.pop_spec hp
  have hmap : f.stack.map SState.val =
      f2.stack.map SState.val ++ [leaf.val] := by
    rw [hstack, List.map_append, List.map_cons, List.map_nil]
  rw [hmap, List.nodup_append] at hnd
  obtain ⟨hnd2, _, hdisj2⟩ := hnd
  have hleaf_notin : leaf.val ∉ f2.stack.map SState.val := fun hx =>
    hdisj2 hx (List.mem_singleton.mpr rfl)
  have hmem_sub : ∀ s ∈ f2.stack, s ∈ f.stack := by
    intro s hs
    rw [hstack]
    exact List.mem_append.mpr (Or.inl hs)
  refine ⟨⟨?_, hnd2, fun s hs => hdisj s (hmem_sub s hs)⟩, hleaf_notin, ?_⟩
  · rw [hset, hsync, hmap]
    rw [List.toFinset_append, List.toFinset_cons, List.toFinset_nil]
    have hins : (f2.stack.map SState.val).toFinset ∪ insert leaf.val ∅ =
        insert leaf.val (f2.stack.map SState.val).toFinset := by
      ext x
      simp [or_comm]
    have hnotin2 : leaf.val ∉ (f2.stack.map SState.val).toFinset := by
      intro hx
      exact hleaf_notin (List.mem_toFinset.mp hx)
    rw [hins, Finset.erase_insert hnotin2]
  · have hmem : leaf ∈ f.stack := by
      rw [hstack]
      exact List.mem_append.mpr (Or.inr (List.mem_singleton.mpr rfl))
    exact hdisj leaf hmem

theorem frontierInv_insert_explored {E : Finset V} {w : V}
    {f : NodeFrontier V A} (h : frontierInv E f)
    (hw : w ∉ (f.stack.map SState.val)) :
    frontierInv (insert w E) f := by
  obtain ⟨hsync, hnd, hdisj⟩ := h
  refine ⟨hsync, hnd, fun s hs => ?_⟩
  rw [Finset.mem_insert]
  rintro (hx | hx)
  · exact hw (hx ▸ List.mem_map_of_mem SState.val hs)
  · exact hdisj s hs hx

end ExpandLemmas

section StepLemmas

variable {V A : Type} [DecidableEq V] [DecidableEq A]
variable {app : V → List A} {res : V → A → V} {goal : V → Bool}

theorem searchStep_exhausted_elim {c c2 : Config V A}
    (hs : searchStep app res goal c = .exhausted c2) :
    c2 = c ∧ c.frontier.is_empty = true := by
  unfold searchStep at hs
  split at hs
  · next he =>
    exact ⟨(StepResult.exhausted.inj hs).symm, he⟩
  · next he =>
    split at hs
    · cases hs
    · next leaf fr hp =>
      split at hs
      · cases hs
      · cases hs

theorem searchStep_goalFound_elim {c c2 : Config V A} {leaf : SState V A}
    (hs : searchStep app res goal c = .goalFound leaf c2) :
    ∃ fr2, c.frontier.pop = some (leaf, fr2) ∧ goal leaf.val = true ∧
      c2 = ⟨fr2, c.explored, c.iterations + 1⟩ := by
  unfold searchStep at hs
  split at hs
  · cases hs
  · split at hs
    · cases hs
    · next l fr hp =>
      split at hs
      · next hg =>
        obtain ⟨h1, h2⟩ := StepResult.goalFound.inj hs
        subst h1
        exact ⟨fr, hp, hg, h2.symm⟩
      · cases hs

theorem searchStep_next_elim {c c2 : Config V A}
    (hs : searchStep app res goal c = .next c2) :
    ∃ leaf fr2, c.frontier.pop = some (leaf, fr2) ∧ goal leaf.val = false ∧
      c2 = ⟨(app leaf.val).foldl
              (expandStep res (insert leaf.val c.explored) leaf) fr2,
            insert leaf.val c.explored, c.iterations + 1⟩ := by
  unfold searchStep at hs
  split at hs
  · cases hs
  · split at hs
    · cases hs
    · next leaf fr hp =>
      split at hs
      · cases hs
      · next hg =>
        rw [Bool.not_eq_true] at hg
        exact ⟨leaf, fr, hp, hg, (StepResult.next.inj hs).symm⟩

theorem searchStep_next_inv {c c2 : Config V A} (h : loopInv c)
    (hs : searchStep app res goal c = .next c2) : loopInv c2 := by
  obtain ⟨leaf, fr2, hp, _, hc2⟩ := searchStep_next_elim hs
  obtain ⟨hinv2, hnotin, _⟩ := frontierInv_pop h hp
  subst hc2
  exact frontierInv_foldl_expand
    (frontierInv_insert_explored hinv2 hnotin)

theorem searchStep_goalFound_inv {c c2 : Config V A} {leaf : SState V A}
    (h : loopInv c) (hs : searchStep app res goal c = .goalFound leaf c2) :
    loopInv c2 := by
  obtain ⟨fr2, hp, _, hc2⟩ := searchStep_goalFound_elim hs
  obtain ⟨hinv2, _, _⟩ := frontierInv_pop h hp
  subst hc2
  exact hinv2

end StepLemmas

section LoopLemmas

variable {V A : Type} [DecidableEq V] [DecidableEq A]
variable {app : V → List A} {res : V → A → V} {goal : V → Bool}

theorem searchLoop_goalFound_goal {fuel : Nat} {c c2 : Config V A}
    {leaf : SState V A}
    (hl : searchLoop app res goal fuel c = .goalFound leaf c2) :
    goal leaf.val = true := by
  induction fuel generalizing c with
  | zero => cases hl
  | succ fuel ih =>
    unfold searchLoop at hl
    cases hs : searchStep app res goal c with
    | exhausted c3 => rw [hs] at hl; cases hl
    | popFailed => rw [hs] at hl; cases hl
    | goalFound l c3 =>
      rw [hs] at hl
      obtain ⟨h1, _⟩ := LoopResult.goalFound.inj hl
      subst h1
      exact (searchStep_goalFound_elim hs).choose_spec.2.1
    | next c3 =>
      rw [hs] at hl
      exact ih hl

theorem searchLoop_goalFound_consistent {fuel : Nat} {c c2 : Config V A}
    {leaf : SState V A} {v0 : V}
    (hc : ∀ s ∈ c.frontier.stack, Consistent app res v0 s)
    (hl : searchLoop app res goal fuel c = .goalFound leaf c2) :
    Consistent app res v0 leaf := by
  induction fuel generalizing c with
  | zero => cases hl
  | succ fuel ih =>
    unfold searchLoop at hl
    cases hs : searchStep app res goal c with
    | exhausted c3 => rw [hs] at hl; cases hl
    | popFailed => rw [hs] at hl; cases hl
    | goalFound l c3 =>
      rw [hs] at hl
      obtain ⟨h1, _⟩ := LoopResult.goalFound.inj hl
      obtain ⟨fr2, hp, _, _⟩ := searchStep_goalFound_elim hs
      have hmem : l ∈ c.frontier.stack := by
        rw [(NodeFrontier.pop_spec hp).1]
        exact List.mem_append.mpr (Or.inr (List.mem_singleton.mpr rfl))
      rw [← h1]
      exact hc l hmem
    | next c3 =>
      rw [hs] at hl
      refine ih ?_ hl
      obtain ⟨l, fr2, hp, _, hc3⟩ := searchStep_next_elim hs
      have hlc : Consistent app res v0 l := by
        have hmem : l ∈ c.frontier.stack := by
          rw [(NodeFrontier.pop_spec hp).1]
          exact List.mem_append.mpr (Or.inr (List.mem_singleton.mpr rfl))
        exact hc l hmem
      subst hc3
      intro s hs2
      rcases mem_foldl_expand_stack hs2 with hs3 | ⟨a, ha, hs3⟩
      · have hmem : s ∈ c.frontier.stack := by
          rw [(NodeFrontier.pop_spec hp).1]
          exact List.mem_append.mpr (Or.inl hs3)
        exact hc s hmem
      · subst hs3
        exact ⟨hlc, ha, rfl⟩

theorem searchLoop_exhausted_spec {fuel : Nat} {c c2 : Config V A}
    (hE : ∀ v ∈ c.explored, goal v = false)
    (hl : searchLoop app res goal fuel c = .exhausted c2) :
    c2.frontier.is_empty = true ∧ ∀ v ∈ c2.explored, goal v = false := by
  induction fuel generalizing c with
  | zero => cases hl
  | succ fuel ih =>
    unfold searchLoop at hl
    cases hs : searchStep app res goal c with
    | exhausted c3 =>
      rw [hs] at hl
      obtain rfl := LoopResult.exhausted.inj hl
      obtain ⟨rfl, he⟩ := searchStep_exhausted_elim hs
      exact ⟨he, hE⟩
    | popFailed => rw [hs] at hl; cases hl
    | goalFound l c3 => rw [hs] at hl; cases hl
    | next c3 =>
      rw [hs] at hl
      refine ih ?_ hl
      obtain ⟨leaf, fr2, hp, hg, hc3⟩ := searchStep_next_elim hs
      subst hc3
      intro v hv
      rcases Finset.mem_insert.mp hv with hv2 | hv2
      · subst hv2
        exact hg
      · exact hE v hv2

theorem searchLoop_preserves_inv {fuel : Nat} {c c2 : Config V A}
    {leaf : SState V A} (h : loopInv c)
    (hl : searchLoop app res goal fuel c = .goalFound leaf c2 ∨
      searchLoop app res goal fuel c = .exhausted c2) :
    loopInv c2 := by
  induction fuel generalizing c with
  | zero => rcases hl with hl | hl <;> cases hl
  | succ fuel ih =>
    rw [searchLoop] at hl
    cases hs : searchStep app res goal c with
    | exhausted c3 =>
      rw [hs] at hl
      rcases hl with hl | hl
      · cases hl
      · obtain rfl := LoopResult.exhausted.inj hl
        obtain ⟨rfl, _⟩ := searchStep_exhausted_elim hs
        exact h
    | popFailed => rw [hs] at hl; rcases hl with hl | hl <;> cases hl
    | goalFound l c3 =>
      rw [hs] at hl
      rcases hl with hl | hl
      · obtain ⟨h1, rfl⟩ := LoopResult.goalFound.inj hl
        exact searchStep_goalFound_inv h hs
      · cases hl
    | next c3 =>
      rw [hs] at hl
      exact ih (searchStep_next_inv h hs) hl

end LoopLemmas

section GraphSearchLemmas

variable {V A : Type} [DecidableEq V] [DecidableEq A]
variable {app : V → List A} {res : V → A → V} {goal : V → Bool}
variable {clock : Nat → ℚ}

theorem graph_search_success_elim {initial_state : SState V A}
    {frontier : NodeFrontier V A} {fuel : Nat} {plan : List A} {g t : ℚ}
    (h : graph_search app res goal clock initial_state frontier fuel =
      some (true, plan, g, t)) :
    ∃ leaf c,
      searchLoop app res goal fuel (initConfig goal initial_state frontier) =
        .goalFound leaf c ∧
      plan = leaf.extract_plan ∧ goal leaf.val = true ∧
      pyFloatOfCommaInt (leaf.extract_plan.length + c.frontier.size) =
        some g ∧
      t = (print_search_status clock leaf.extract_plan c.frontier
        (clock 0) 1).2 := by
  unfold graph_search at h
  cases hl : searchLoop app res goal fuel (initConfig goal initial_state
      frontier) with
  | fuelOut => rw [hl] at h; cases h
  | popFailed => rw [hl] at h; cases h
  | exhausted c => rw [hl] at h; simp at h
  | goalFound leaf c =>
    rw [hl] at h
    obtain ⟨a, ha, hb⟩ := Option.map_eq_some'.mp h
    obtain ⟨hflag, hplan, hg, ht⟩ :
        goal leaf.val = true ∧ leaf.extract_plan = plan ∧ a = g ∧
          (print_search_status clock leaf.extract_plan c.frontier
            (clock 0) 1).2 = t := by
      have := Prod.mk.injEq .. ▸ hb
      refine ⟨?_, ?_, ?_, ?_⟩
      · exact congrArg Prod.fst hb
      · exact congrArg (fun p => p.2.1) hb
      · exact congrArg (fun p => p.2.2.1) hb
      · exact congrArg (fun p => p.2.2.2) hb
    refine ⟨leaf, c, rfl, hplan.symm, hflag, ?_, ht.symm⟩
    have hpss : (print_search_status clock leaf.extract_plan c.frontier
        (clock 0) 1).1 = leaf.extract_plan.length + c.frontier.size := rfl
    rw [hpss] at ha
    rw [ha, hg]

theorem graph_search_failure_elim {initial_state : SState V A}
    {frontier : NodeFrontier V A} {fuel : Nat} {plan : List A} {g t : ℚ}
    (h : graph_search app res goal clock initial_state frontier fuel =
      some (false, plan, g, t)) :
    ∃ c,
      searchLoop app res goal fuel (initConfig goal initial_state frontier) =
        .exhausted c ∧
      plan = [] ∧ g = (c.iterations : ℚ) ∧ t = clock 1 - clock 0 := by
  unfold graph_search at h
  cases hl : searchLoop app res goal fuel (initConfig goal initial_state
      frontier) with
  | fuelOut => rw [hl] at h; cases h
  | popFailed => rw [hl] at h; cases h
  | exhausted c =>
    rw [hl] at h
    refine ⟨c, rfl, ?_, ?_, ?_⟩
    · exact (congrArg (fun p => p.2.1) (Option.some.inj h)).symm
    · exact (congrArg (fun p => p.2.2.1) (Option.some.inj h)).symm
    · exact (congrArg (fun p => p.2.2.2) (Option.some.inj h)).symm
  | goalFound leaf c =>
    rw [hl] at h
    obtain ⟨a, ha, hb⟩ := Option.map_eq_some'.mp h
    have hflag : goal leaf.val = false := congrArg Prod.fst hb
    have hgoal : goal leaf.val = true := searchLoop_goalFound_goal hl
    rw [hgoal] at hflag
    cases hflag

theorem initConfig_stack {initial_state : SState V A}
    {frontier : NodeFrontier V A} :
    (initConfig goal initial_state frontier).frontier.stack =
      [SState.root initial_state.val] := rfl

theorem initConfig_inv {initial_state : SState V A}
    {frontier : NodeFrontier V A} :
    loopInv (initConfig goal initial_state frontier) := by
  refine ⟨?_, ?_, ?_⟩
  · rfl
  · simp [initConfig_stack, SState.val]
  · intro s hs
    simp [initConfig]

end GraphSearchLemmas

namespace FrontierDFS

variable {σ : Type} [DecidableEq σ]

theorem dfs_pop_decomp {f f2 : FrontierDFS σ} {s : σ} (h : f.pop = some (s, f2)) :
    f.stack = f2.stack ++ [s] ∧ f2.set = f.set.erase s := by
  cases hg : f.stack.getLast? with
  | none => simp [pop, hg] at h
  | some t =>
    simp only [pop, hg] at h
    obtain ⟨rfl, rfl⟩ : t = s ∧ (⟨f.stack.dropLast, f.set.erase t⟩ :
        FrontierDFS σ) = f2 := by
      constructor
      · exact congrArg Prod.fst (Option.some.inj h)
      · exact congrArg Prod.snd (Option.some.inj h)
    obtain ⟨l, hl⟩ := List.getLast?_eq_some_iff.mp hg
    constructor
    · rw [hl, List.dropLast_concat]
    · rfl

theorem dfs_is_empty_iff_nil {f : FrontierDFS σ} :
    f.is_empty = true ↔ f.stack = [] := by
  simp [is_empty, List.length_eq_zero]

theorem dfs_pop_eq_none_of_empty {f : FrontierDFS σ} (h : f.is_empty = true) :
    f.pop = none := by
  rw [dfs_is_empty_iff_nil] at h
  simp [pop, h]

theorem dfs_pop_eq_some_of_not_empty {f : FrontierDFS σ} (h : f.is_empty = false) :
    ∃ s f2, f.pop = some (s, f2) := by
  rcases f.stack.eq_nil_or_concat' with hnil | ⟨l, b, hl⟩
  · rw [← dfs_is_empty_iff_nil] at hnil
    rw [h] at hnil
    cases hnil
  · exact ⟨b, ⟨f.stack.dropLast, f.set.erase b⟩, by
      simp [pop, hl, List.getLast?_concat]⟩

end FrontierDFS

theorem runOps_size {σ : Type} [DecidableEq σ] :
    ∀ (ops : List (FOp σ)) (f f2 : FrontierDFS σ),
      runOps f ops = some f2 →
      f2.size + countPops ops = f.size + countAdds ops := by
  intro ops
  induction ops with
  | nil =>
    intro f f2 h
    obtain rfl := Option.some.inj h
    simp [countAdds, countPops]
  | cons op ops ih =>
    intro f f2 h
    cases op with
    | add s =>
      rw [runOps] at h
      split at h
      · cases h
      · have h2 := ih _ _ h
        simp only [FrontierDFS.add, FrontierDFS.size, List.length_append,
          List.length_singleton] at h2
        simp only [countAdds, countPops, FrontierDFS.size]
        omega
    | pop =>
      rw [runOps] at h
      cases hp : f.pop with
      | none => rw [hp] at h; cases h
      | some p =>
        obtain ⟨s1, f3⟩ := p
        rw [hp] at h
        have h2 := ih _ _ h
        have hlen : f.stack.length = f3.stack.length + 1 := by
          rw [(FrontierDFS.dfs_pop_decomp hp).1]
          simp
        simp only [countAdds, countPops, FrontierDFS.size] at h2 ⊢
        omega

theorem runOps_sync {σ : Type} [DecidableEq σ] :
    ∀ (ops : List (FOp σ)) (f f2 : FrontierDFS σ),
      f.set = f.stack.toFinset → f.stack.Nodup →
      runOps f ops = some f2 →
      f2.set = f2.stack.toFinset ∧ f2.stack.Nodup := by
  intro ops
  induction ops with
  | nil =>
    intro f f2 hsync hnd h
    obtain rfl := Option.some.inj h
    exact ⟨hsync, hnd⟩
  | cons op ops ih =>
    intro f f2 hsync hnd h
    cases op with
    | add s =>
      rw [runOps] at h
      split at h
      · cases h
      · next hc =>
        refine ih _ _ ?_ ?_ h
        · simp only [FrontierDFS.add, List.toFinset_append,
            List.toFinset_cons, List.toFinset_nil, hsync]
          ext x
          simp [or_comm]
        · have hs : s ∉ f.stack := by
            rw [Bool.not_eq_true] at hc
            simp only [FrontierDFS.contains, decide_eq_false_iff_not,
              hsync, List.mem_toFinset] at hc
            exact hc
          simp only [FrontierDFS.add]
          rw [List.nodup_append]
          refine ⟨hnd, List.nodup_singleton _, ?_⟩
          intro x hx hx2
          rw [List.mem_singleton] at hx2
          subst hx2
          exact hs hx
    | pop =>
      rw [runOps] at h
      cases hp : f.pop with
      | none => rw [hp] at h; cases h
      | some p =>
        obtain ⟨s1, f3⟩ := p
        rw [hp] at h
        obtain ⟨hstack, hset⟩ := FrontierDFS.dfs_pop_decomp hp
        rw [hstack, List.nodup_append] at hnd
        obtain ⟨hnd2, _, hdisj⟩ := hnd
        have hnotin : s1 ∉ f3.stack := fun hx =>
          hdisj hx (List.mem_singleton.mpr rfl)
        refine ih _ _ ?_ hnd2 h
        rw [hset, hsync, hstack, List.toFinset_append, List.toFinset_cons,
          List.toFinset_nil]
        have hins : f3.stack.toFinset ∪ insert s1 ∅ =
            insert s1 f3.stack.toFinset := by
          ext x
          simp [or_comm]
        have hnotin2 : s1 ∉ f3.stack.toFinset := by
          intro hx
          exact hnotin (List.mem_toFinset.mp hx)
        rw [hins, Finset.erase_insert hnotin2]

/-- C1: for every run of graph_search that returns success = true, the
returned plan is a valid sequence of action-groups: starting from the initial
configuration, every consecutive pair of configurations is connected by an
applicable action-group whose transition (state.result) yields the next
configuration, and the final configuration satisfies the goal predicate
(`valid_plan` states exactly this). -/
theorem graph_search_success_plan_valid {V A : Type} [DecidableEq V]
    [DecidableEq A] (app : V → List A) (res : V → A → V) (goal : V → Bool)
    (clock : Nat → ℚ) (initial_state : SState V A)
    (frontier : NodeFrontier V A) (fuel : Nat) (plan : List A) (g t : ℚ)
    (h : graph_search app res goal clock initial_state frontier fuel =
      some (true, plan, g, t)) :
    valid_plan app res goal initial_state.val plan = true := by
  obtain ⟨leaf, c, hl, hplan, hgoal, _, _⟩ := graph_search_success_elim h
  have hcons : Consistent app res initial_state.val leaf := by
    refine searchLoop_goalFound_consistent ?_ hl
    intro s hs
    rw [initConfig_stack, List.mem_singleton] at hs
    subst hs
    simp [Consistent]
  rw [hplan]
  exact hcons.valid_plan_of_goal hgoal

/-- Witness for C1 on a concrete three-configuration system: the successful
run returns the plan [1], and the claim theorem yields its validity. -/
theorem graph_search_success_plan_valid_witness :
    valid_plan (fun v : Nat => if v = 0 then [1, 2] else [])
      (fun _ a => a) (fun v => v == 1) 0 [1] = true := by
  refine graph_search_success_plan_valid
    (fun v : Nat => if v = 0 then [1, 2] else []) (fun _ a => a)
    (fun v => v == 1) (fun k => (k : ℚ)) (SState.root 0) ⟨[], ∅⟩ 5
    [1] 1 1 ?_
  have hl : searchLoop (fun v : Nat => if v = 0 then [1, 2] else [])
      (fun _ a => a) (fun v => v == 1) 5
      (initConfig (fun v => v == 1) (SState.root 0) ⟨[], ∅⟩) =
      .goalFound (.child 1 1 (.root 0))
        ⟨⟨[], ∅⟩, insert 2 (insert 0 ∅), 3⟩ := by decide
  unfold graph_search
  rw [hl]
  simp only [print_search_status, pyFloatOfCommaInt, NodeFrontier.size,
    SState.extract_plan, SState.val, round3, Option.map]
  norm_num [round_eq]

/-- C2 (failing input): on this three-configuration system the loop expands
three states and leaves an empty frontier when the goal is found, so the
generated count of the claim would be 3; the returned generated-count
component is 1, because the source passes `leaf.extract_plan()` (here of
length 1) to `print_search_status` in place of the expanded collection. -/
theorem graph_search_generated_count_failing_input :
    graph_search (fun v : Nat => if v = 0 then [1, 2] else [])
      (fun _ a => a) (fun v => v == 1) (fun k => (k : ℚ))
      (SState.root 0) ⟨[], ∅⟩ 5 = some (true, [1], 1, 1) ∧
    searchLoop (fun v : Nat => if v = 0 then [1, 2] else [])
      (fun _ a => a) (fun v => v == 1) 5
      (initConfig (fun v => v == 1) (SState.root 0) ⟨[], ∅⟩) =
      .goalFound (.child 1 1 (.root 0))
        ⟨⟨[], ∅⟩, insert 2 (insert 0 ∅), 3⟩ ∧
    (1 : ℚ) ≠ ((3 : Nat) : ℚ) + ((0 : Nat) : ℚ) := by
  have hl : searchLoop (fun v : Nat => if v = 0 then [1, 2] else [])
      (fun _ a => a) (fun v => v == 1) 5
      (initConfig (fun v => v == 1) (SState.root 0) ⟨[], ∅⟩) =
      .goalFound (.child 1 1 (.root 0))
        ⟨⟨[], ∅⟩, insert 2 (insert 0 ∅), 3⟩ := by decide
  refine ⟨?_, hl, by norm_num⟩
  unfold graph_search
  rw [hl]
  simp only [print_search_status, pyFloatOfCommaInt, NodeFrontier.size,
    SState.extract_plan, SState.val, round3, Option.map]
  norm_num [round_eq]

/-- C3 (failing input): an initial configuration that already satisfies the
goal.  The run returns success and an empty plan with non-negative elapsed
time as claimed, but the generated-count component is 0, not 1: the source
computes it as plan length (0) plus frontier size (0). -/
theorem graph_search_trivial_goal_failing_input :
    graph_search (fun _ : Nat => ([] : List Nat)) (fun _ a => a)
      (fun _ => true) (fun k => (k : ℚ)) (SState.root 0) ⟨[], ∅⟩ 1 =
      some (true, [], 0, 1) ∧
    (0 : ℚ) ≠ 1 := by
  refine ⟨?_, by norm_num⟩
  have hl : searchLoop (fun _ : Nat => ([] : List Nat)) (fun _ a => a)
      (fun _ => true) 1
      (initConfig (fun _ => true) (SState.root 0) ⟨[], ∅⟩) =
      .goalFound (.root 0) ⟨⟨[], ∅⟩, ∅, 1⟩ := by decide
  unfold graph_search
  rw [hl]
  simp only [print_search_status, pyFloatOfCommaInt, NodeFrontier.size,
    SState.extract_plan, SState.val, round3, Option.map]
  norm_num [round_eq]

/-- C4: every run of graph_search that returns success = false returns an
empty plan, the expansion count (which at that moment equals the generated
count, the frontier being empty) and the elapsed time; the loop terminated
on an empty frontier, and no configuration in the explored set satisfies the
goal predicate. -/
theorem graph_search_failure_spec {V A : Type} [DecidableEq V]
    [DecidableEq A] (app : V → List A) (res : V → A → V) (goal : V → Bool)
    (clock : Nat → ℚ) (initial_state : SState V A)
    (frontier : NodeFrontier V A) (fuel : Nat) (plan : List A) (g t : ℚ)
    (h : graph_search app res goal clock initial_state frontier fuel =
      some (false, plan, g, t)) :
    plan = [] ∧ t = clock 1 - clock 0 ∧
    ∃ c, searchLoop app res goal fuel
        (initConfig goal initial_state frontier) = .exhausted c ∧
      c.frontier.is_empty = true ∧ c.frontier.size = 0 ∧
      g = (c.iterations : ℚ) ∧
      ∀ v ∈ c.explored, goal v = false := by
  obtain ⟨c, hl, hplan, hg, ht⟩ := graph_search_failure_elim h
  obtain ⟨hempty, hgf⟩ := searchLoop_exhausted_spec
    (fun v hv => absurd hv (Finset.not_mem_empty v)) hl
  have hsize : c.frontier.size = 0 := by
    have hnil := NodeFrontier.is_empty_true_iff.mp hempty
    simp [NodeFrontier.size, hnil]
  exact ⟨hplan, ht, c, hl, hempty, hsize, hg, hgf⟩

/-- Witness for C4 on a concrete unreachable-goal system: the run exhausts
the frontier after expanding the single reachable configuration. -/
theorem graph_search_failure_spec_witness :
    ([] : List Nat) = [] ∧
    (1 : ℚ) = ((1 : Nat) : ℚ) - ((0 : Nat) : ℚ) ∧
    ∃ c, searchLoop (fun _ : Nat => ([] : List Nat)) (fun _ a => a)
        (fun _ => false) 2
        (initConfig (fun _ => false) (SState.root 0) ⟨[], ∅⟩) =
        .exhausted c ∧
      c.frontier.is_empty = true ∧ c.frontier.size = 0 ∧
      (1 : ℚ) = (c.iterations : ℚ) ∧
      ∀ v ∈ c.explored, (fun _ : Nat => false) v = false := by
  refine graph_search_failure_spec (fun _ : Nat => ([] : List Nat))
    (fun _ a => a) (fun _ => false) (fun k => (k : ℚ)) (SState.root 0)
    ⟨[], ∅⟩ 2 [] 1 1 ?_
  have hl : searchLoop (fun _ : Nat => ([] : List Nat)) (fun _ a => a)
      (fun _ => false) 2
      (initConfig (fun _ => false) (SState.root 0) ⟨[], ∅⟩) =
      .exhausted ⟨⟨[], ∅⟩, insert 0 ∅, 1⟩ := by decide
  unfold graph_search
  rw [hl]
  norm_num

/-- C5: during any run of graph_search no configuration is referenced by the
frontier and the explored set at the same time.  The loop invariant holds in
the initial loop state, is preserved by every loop iteration (whether it
continues, exhausts or finds the goal), and contains the disjointness: every
node on the frontier stack has a configuration outside the explored set. -/
theorem frontier_explored_disjoint {V A : Type} [DecidableEq V]
    [DecidableEq A] (app : V → List A) (res : V → A → V) (goal : V → Bool) :
    (∀ (initial_state : SState V A) (frontier : NodeFrontier V A),
      loopInv (initConfig goal initial_state frontier)) ∧
    (∀ c c2 : Config V A, loopInv c →
      (searchStep app res goal c = .next c2 ∨
        searchStep app res goal c = .exhausted c2 ∨
        ∃ leaf, searchStep app res goal c = .goalFound leaf c2) →
      loopInv c2) ∧
    (∀ c : Config V A, loopInv c →
      ∀ s ∈ c.frontier.stack, s.val ∉ c.explored) := by
  refine ⟨fun i f => initConfig_inv, ?_, fun c hc => hc.2.2⟩
  rintro c c2 h (hs | hs | ⟨leaf, hs⟩)
  · exact searchStep_next_inv h hs
  · obtain ⟨rfl, _⟩ := searchStep_exhausted_elim hs
    exact h
  · exact searchStep_goalFound_inv h hs

/-- Witness for C5: one concrete loop iteration from the initial loop state
of the three-configuration system preserves the invariant. -/
theorem frontier_explored_disjoint_witness :
    loopInv (V := Nat) (A := Nat)
      ⟨⟨[SState.child 1 1 (SState.root 0), SState.child 2 2 (SState.root 0)],
          insert 2 (insert 1 ∅)⟩,
        insert 0 ∅, 1⟩ :=
  (frontier_explored_disjoint (fun v : Nat => if v = 0 then [1, 2] else [])
      (fun _ a => a) (fun v => v == 1)).2.1
    ⟨⟨[SState.root 0], insert 0 ∅⟩, ∅, 0⟩
    ⟨⟨[SState.child 1 1 (SState.root 0), SState.child 2 2 (SState.root 0)],
        insert 2 (insert 1 ∅)⟩,
      insert 0 ∅, 1⟩
    ⟨by decide, by decide, by decide⟩ (Or.inl (by decide))

/-- C6: the DFS frontier is last-in-first-out: after add(a) then add(b), pop
returns b and the next pop returns a; and along any interleaved add/pop call
sequence from a fresh frontier that never adds a present state and pops only
when non-empty, size equals the number of adds minus the number of pops, and
is_empty holds exactly when that difference is zero. -/
theorem frontierDFS_lifo_and_counts {σ : Type} [DecidableEq σ] :
    (∀ (f : FrontierDFS σ) (a b : σ), a ≠ b →
      ∃ f1 f2, ((f.add a).add b).pop = some (b, f1) ∧
        f1.pop = some (a, f2)) ∧
    (∀ (ops : List (FOp σ)) (f2 : FrontierDFS σ),
      runOps ⟨[], ∅⟩ ops = some f2 →
      f2.size = countAdds ops - countPops ops ∧
        (f2.is_empty = true ↔ countAdds ops - countPops ops = 0)) := by
  constructor
  · intro f a b _
    refine ⟨⟨f.stack ++ [a], (insert b (insert a f.set)).erase b⟩,
      ⟨f.stack, ((insert b (insert a f.set)).erase b).erase a⟩, ?_, ?_⟩
    · show FrontierDFS.pop ⟨(f.stack ++ [a]) ++ [b], _⟩ = _
      simp [FrontierDFS.pop, FrontierDFS.add, List.getLast?_concat,
        List.dropLast_concat]
    · show FrontierDFS.pop ⟨f.stack ++ [a], _⟩ = _
      simp [FrontierDFS.pop, FrontierDFS.add, List.getLast?_concat,
        List.dropLast_concat]
  · intro ops f2 h
    have hs := runOps_size ops ⟨[], ∅⟩ f2 h
    simp only [FrontierDFS.size, List.length_nil] at hs
    have hsz : f2.size = countAdds ops - countPops ops := by
      simp only [FrontierDFS.size]
      omega
    refine ⟨hsz, ?_⟩
    rw [← hsz]
    simp [FrontierDFS.is_empty, FrontierDFS.size, beq_iff_eq]

/-- Witness for C6: the LIFO law at states 1 and 2, and the count law along
the call sequence add 1, add 2, pop. -/
theorem frontierDFS_lifo_and_counts_witness :
    (∃ f1 f2, ((((⟨[], ∅⟩ : FrontierDFS Nat).add 1).add 2).pop =
        some (2, f1) ∧ f1.pop = some (1, f2))) ∧
    ((⟨[1], {1}⟩ : FrontierDFS Nat).size =
        countAdds [FOp.add 1, FOp.add 2, FOp.pop] -
          countPops [FOp.add 1, FOp.add 2, FOp.pop] ∧
      ((⟨[1], {1}⟩ : FrontierDFS Nat).is_empty = true ↔
        countAdds [FOp.add 1, FOp.add 2, FOp.pop] -
          countPops [FOp.add 1, FOp.add 2, FOp.pop] = 0)) :=
  ⟨(@frontierDFS_lifo_and_counts Nat _).1 ⟨[], ∅⟩ 1 2 (by decide),
   (@frontierDFS_lifo_and_counts Nat _).2 [FOp.add 1, FOp.add 2, FOp.pop]
     ⟨[1], {1}⟩ (by decide)⟩

/-- C7: pop on an empty DFS frontier fails loudly (the raised IndexError is
modelled by the `none` outcome, never a sentinel state), and whenever
is_empty is false the error branch is unreachable: pop yields a state. -/
theorem frontierDFS_pop_empty_fails {σ : Type} [DecidableEq σ]
    (f : FrontierDFS σ) :
    (f.is_empty = true → f.pop = none) ∧
    (f.is_empty = false → ∃ s f2, f.pop = some (s, f2)) :=
  ⟨FrontierDFS.dfs_pop_eq_none_of_empty, FrontierDFS.dfs_pop_eq_some_of_not_empty⟩

/-- Witness for C7 at the empty frontier and at a singleton frontier. -/
theorem frontierDFS_pop_empty_fails_witness :
    (⟨[], ∅⟩ : FrontierDFS Nat).pop = none ∧
    ∃ s f2, (⟨[5], {5}⟩ : FrontierDFS Nat).pop = some (s, f2) :=
  ⟨(frontierDFS_pop_empty_fails ⟨[], ∅⟩).1 (by decide),
   (frontierDFS_pop_empty_fails ⟨[5], {5}⟩).2 (by decide)⟩

/-- C8: prepare resets any DFS frontier to the empty state regardless of
prior use (size 0, is_empty, no contained state), and therefore a run of
graph_search on a reused frontier instance returns exactly the same result
as a run on any other (in particular a fresh) instance. -/
theorem prepare_resets_and_search_reuse :
    (∀ (σ G : Type) [DecidableEq σ] (f : FrontierDFS σ) (gd : G),
      (f.prepare gd).size = 0 ∧ (f.prepare gd).is_empty = true ∧
        ∀ s, (f.prepare gd).contains s = false) ∧
    (∀ (V A : Type) [DecidableEq V] [DecidableEq A]
        (app : V → List A) (res : V → A → V) (goal : V → Bool)
        (clock : Nat → ℚ) (initial_state : SState V A)
        (f1 f2 : NodeFrontier V A) (fuel : Nat),
      graph_search app res goal clock initial_state f1 fuel =
        graph_search app res goal clock initial_state f2 fuel) := by
  constructor
  · intro σ G _ f gd
    refine ⟨rfl, rfl, fun s => ?_⟩
    simp [FrontierDFS.prepare, FrontierDFS.contains]
  · intro V A _ _ app res goal clock initial_state f1 f2 fuel
    rfl

/-- C10: along any legal call sequence from a fresh DFS frontier the
membership index holds exactly the states of the ordered stack, so contains
answers stack membership. -/
theorem frontierDFS_membership_index_sync {σ : Type} [DecidableEq σ]
    (ops : List (FOp σ)) (f2 : FrontierDFS σ)
    (h : runOps ⟨[], ∅⟩ ops = some f2) :
    f2.set = f2.stack.toFinset ∧
      ∀ s, f2.contains s = true ↔ s ∈ f2.stack := by
  obtain ⟨hsync, _⟩ := runOps_sync ops ⟨[], ∅⟩ f2 (by simp) (by simp) h
  refine ⟨hsync, fun s => ?_⟩
  simp [FrontierDFS.contains, hsync, List.mem_toFinset]

/-- Witness for C10 along the call sequence add 1, add 2, pop. -/
theorem frontierDFS_membership_index_sync_witness :
    (⟨[1], {1}⟩ : FrontierDFS Nat).set =
      (⟨[1], {1}⟩ : FrontierDFS Nat).stack.toFinset ∧
    ∀ s, (⟨[1], {1}⟩ : FrontierDFS Nat).contains s = true ↔
      s ∈ (⟨[1], {1}⟩ : FrontierDFS Nat).stack :=
  frontierDFS_membership_index_sync [FOp.add 1, FOp.add 2, FOp.pop]
    ⟨[1], {1}⟩ (by decide)

/-- C9 (counterexample): a run whose initial configuration satisfies the
goal, under the clock 0, 5, 9 (read 0 taken around prepare, read 2 being the
last read before the result is produced).  The elapsed component returned is
4 = round3 (9 - 5): print_search_status re-baselined the start time at read
1 because the reconstructed plan is empty.  Measured from the completion of
prepare to the production of the result the elapsed time would be 9 - 0
(or 5 - 0 up to the reporter read); the returned value is neither. -/
theorem graph_search_elapsed_rebaseline_counterexample :
    graph_search (fun _ : Nat => ([] : List Nat)) (fun _ a => a)
      (fun _ => true)
      (fun k => if k = 0 then (0 : ℚ) else if k = 1 then 5 else 9)
      (SState.root 0) ⟨[], ∅⟩ 1 = some (true, [], 0, 4) ∧
    (4 : ℚ) ≠ 9 - 0 ∧ (4 : ℚ) ≠ 5 - 0 := by
  refine ⟨?_, by norm_num, by norm_num⟩
  have hl : searchLoop (fun _ : Nat => ([] : List Nat)) (fun _ a => a)
      (fun _ => true) 1
      (initConfig (fun _ => true) (SState.root 0) ⟨[], ∅⟩) =
      .goalFound (.root 0) ⟨⟨[], ∅⟩, ∅, 1⟩ := by decide
  unfold graph_search
  rw [hl]
  simp only [print_search_status, pyFloatOfCommaInt, NodeFrontier.size,
    SState.extract_plan, SState.val, round3, Option.map]
  norm_num [round_eq]

/-- C9 (amended): the elapsed component of a graph_search result is the
difference of two clock reads of the run, rounded to three decimals on the
success path: for a failure it is read 1 minus read 0 (read 0 is taken at
the top of the function, just before prepare, and prepare performs no clock
read); for a success with a non-empty plan it is round3 of read 1 minus
read 0; for a success with an empty plan the reporter re-baselines and it is
round3 of read 2 minus read 1, not a measurement from the start of the
run. -/
theorem graph_search_elapsed_measurement {V A : Type} [DecidableEq V]
    [DecidableEq A] (app : V → List A) (res : V → A → V) (goal : V → Bool)
    (clock : Nat → ℚ) (initial_state : SState V A)
    (frontier : NodeFrontier V A) (fuel : Nat) (success : Bool)
    (plan : List A) (g t : ℚ)
    (h : graph_search app res goal clock initial_state frontier fuel =
      some (success, plan, g, t)) :
    (success = false → t = clock 1 - clock 0) ∧
    (success = true → plan = [] → t = round3 (clock 2 - clock 1)) ∧
    (success = true → plan ≠ [] → t = round3 (clock 1 - clock 0)) := by
  cases success with
  | false =>
    obtain ⟨c, _, _, _, ht⟩ := graph_search_failure_elim h
    exact ⟨fun _ => ht, nofun, nofun⟩
  | true =>
    obtain ⟨leaf, c, _, hplan, _, _, ht⟩ := graph_search_success_elim h
    refine ⟨nofun, fun _ hpe => ?_, fun _ hpne => ?_⟩
    · rw [hplan] at hpe
      rw [hpe] at ht
      simpa [print_search_status] using ht
    · rw [hplan] at hpne
      have hlen : leaf.extract_plan.length ≠ 0 := by
        simpa [List.length_eq_zero] using hpne
      rw [ht]
      simp [print_search_status, hlen]

/-- Witness for C9 (amended) on the three-configuration system, whose
successful run has a non-empty plan: the elapsed component is round3 of
read 1 minus read 0. -/
theorem graph_search_elapsed_measurement_witness :
    (1 : ℚ) = round3 (((1 : Nat) : ℚ) - ((0 : Nat) : ℚ)) := by
  have h : graph_search (fun v : Nat => if v = 0 then [1, 2] else [])
      (fun _ a => a) (fun v => v == 1) (fun k => (k : ℚ))
      (SState.root 0) ⟨[], ∅⟩ 5 = some (true, [1], 1, 1) := by
    have hl : searchLoop (fun v : Nat => if v = 0 then [1, 2] else [])
        (fun _ a => a) (fun v => v == 1) 5
        (initConfig (fun v => v == 1) (SState.root 0) ⟨[], ∅⟩) =
        .goalFound (.child 1 1 (.root 0))
          ⟨⟨[], ∅⟩, insert 2 (insert 0 ∅), 3⟩ := by decide
    unfold graph_search
    rw [hl]
    simp only [print_search_status, pyFloatOfCommaInt, NodeFrontier.size,
      SState.extract_plan, SState.val, round3, Option.map]
    norm_num [round_eq]
  exact (graph_search_elapsed_measurement
    (fun v : Nat => if v = 0 then [1, 2] else []) (fun _ a => a)
    (fun v => v == 1) (fun k => (k : ℚ)) (SState.root 0) ⟨[], ∅⟩ 5
    true [1] 1 1 h).2.2 rfl (by decide)
